import Mathlib

/-!
Shallow embedding of the core worker algorithms of the ai-bug-reproduction-tool
pipeline (Python), together with proofs checking the natural-language
specification against them.

Conventions of the embedding:
* Python floats are modelled as exact rationals (`ℚ`).  At every comparison
  appearing in the claims below the floating-point computation of the source is
  exact (the constants `0.5`, `700.0 = 1000 * 0.7`, … are exactly representable
  at the relevant magnitudes), so the rational model agrees with the source.
* Python dicts that serve as records are modelled as structures carrying the
  fields the algorithms read; fields that no modelled code path reads are
  omitted.
* Database tables are modelled as lists of row structures, SQL upserts as the
  corresponding pure list transformations.
* `async` methods have no concurrency visible to these claims; they are
  modelled as pure functions.  Method calls on `self` that are injected
  collaborators (e.g. the test-execution predicate of the minimizer) become
  function parameters.
-/

namespace BugRepro

/-! ## Validate worker (`workers/validate-worker/worker.py`) -/

/-- One entry of `run_results` as consumed by `_calculate_stability_metrics`:
only the `passed` flag and `duration_ms` are read. -/
structure RunResult where
  passed : Bool
  duration_ms : ℚ
deriving Repr, DecidableEq

/-- Population variance as computed by `np.var`: mean of squared deviations
from the mean.  (For the empty list the source would produce NaN; the branch
is unreachable in `_calculate_stability_metrics`.) -/
def popVar (l : List ℚ) : ℚ :=
  ((l.map (fun x => (x - l.sum / l.length) ^ 2)).sum) / l.length

/-- Result record of `_calculate_stability_metrics`.  The `performance_stats`
dict (mean/median/stdev over durations) is not modelled: no claim concerns it
and `stdev` involves a square root.  `stability_class` is `none` exactly when
the source's empty-input dict lacks the `stability_class` key. -/
structure StabilityMetrics where
  stability_score : ℚ
  flaky_score : ℚ
  consistency_score : ℚ
  stability_class : Option String
deriving Repr, DecidableEq

/-- `_calculate_stability_metrics` of the Validate worker. -/
def _calculate_stability_metrics (run_results : List RunResult) : StabilityMetrics :=
  if run_results = [] then
    { stability_score := 0, flaky_score := 1, consistency_score := 0,
      stability_class := none }
  else
    let passed_runs := run_results.filter (·.passed)
    let pass_rate : ℚ := (passed_runs.length : ℚ) / (run_results.length : ℚ)
    let results_binary : List ℚ :=
      run_results.map (fun r => if r.passed then (1 : ℚ) else 0)
    -- `len(set(results_binary)) > 1`
    let flaky_score : ℚ :=
      if 1 < results_binary.dedup.length then popVar results_binary else 0
    let consistency_score : ℚ := 1 - flaky_score
    let stability_class : String :=
      if pass_rate = 1 then "stable"
      else if 4/5 ≤ pass_rate then "mostly_stable"
      else if 1/2 ≤ pass_rate then "unstable"
      else "very_unstable"
    { stability_score := pass_rate, flaky_score := flaky_score,
      consistency_score := consistency_score,
      stability_class := some stability_class }

/-- Helper for `_split_into_subsets`: successive chunks of size `s` (the last
chunk may be shorter).  The first argument is recursion fuel; any fuel of at
least the list length gives the intended result, and callers pass the
length.  (For `s = 0` the source raises `ValueError` from `range` with step
0; that state is unreachable in the minimization loop, where `n ≤ len(steps)`
keeps `subset_size ≥ 1`.) -/
def chunksOfAux (s : Nat) : Nat → List α → List (List α)
  | 0, _ => []
  | _, [] => []
  | f + 1, x :: xs => (x :: xs.take (s - 1)) :: chunksOfAux s f (xs.drop (s - 1))

def chunksOf (s : Nat) (l : List α) : List (List α) :=
  chunksOfAux s l.length l

/-- `_split_into_subsets`: chunks of size `len(items) // n` (the last chunk may
be shorter; when `len` is not a multiple the source produces more than `n`
chunks, which we reproduce). -/
def _split_into_subsets (items : List α) (n : Nat) : List (List α) :=
  chunksOf (items.length / n) items

/-- `__test_steps_still_fail`: `len(steps) > len(steps) * 0.5`.  The float
arithmetic is exact here (`0.5` is a power of two), so the rational reading is
faithful. -/
def _test_steps_still_fail (steps : List α) : Bool :=
  decide ((steps.length : ℚ) * (1/2) < (steps.length : ℚ))

/-- Evaluation lemma: the stub predicate holds exactly of nonempty step lists
(`n > n * 0.5` iff `n > 0`).  Stated with a `Nat` comparison so that concrete
instances reduce by `decide` (rational arithmetic does not kernel-reduce). -/
lemma _test_steps_still_fail_eq (l : List α) :
    _test_steps_still_fail l = decide (0 < l.length) := by
  unfold _test_steps_still_fail
  rw [decide_eq_decide]
  constructor
  · intro h
    by_contra hn
    have h0 : l.length = 0 := by omega
    rw [h0] at h
    norm_num at h
  · intro h
    have h0 : (0 : ℚ) < (l.length : ℚ) := by exact_mod_cast h
    linarith

lemma _test_steps_still_fail_funext :
    (_test_steps_still_fail : List ℕ → Bool) = fun l => decide (0 < l.length) :=
  funext fun l => _test_steps_still_fail_eq l

/-- The inner `for subset in subsets` loop of `_delta_minimization_algorithm`:
return the first `remaining_steps = [s for s in steps if s not in subset]`
for which the test predicate reports that the reduced steps still fail. -/
def findRemoval [DecidableEq α] (test : List α → Bool) (steps : List α) :
    List (List α) → Option (List α)
  | [] => none
  | d :: ds =>
    let remaining := steps.filter (fun s => ¬ s ∈ d)
    if test remaining then some remaining else findRemoval test steps ds

/-- The `while len(steps) >= 2` loop of `_delta_minimization_algorithm`.
The source loop has no timeout and no break besides the `while` condition;
`fuel` makes the (possibly diverging) loop a total function: `none` means the
source loop has not terminated within `fuel` iterations. -/
def ddminLoop [DecidableEq α] (test : List α → Bool) :
    Nat → List α → Nat → Option (List α)
  | 0, _, _ => none
  | fuel + 1, steps, n =>
    if steps.length < 2 then some steps
    else
      match findRemoval test steps (_split_into_subsets steps n) with
      | some remaining => ddminLoop test fuel remaining (max (n - 1) 2)
      | none => ddminLoop test fuel steps (min (n * 2) steps.length)

/-- `_delta_minimization_algorithm`, with the call to
`self.__test_steps_still_fail(remaining_steps, test_config)` abstracted into
the parameter `test`. -/
def _delta_minimization_algorithm [DecidableEq α] (test : List α → Bool)
    (fuel : Nat) (steps : List α) : Option (List α) :=
  ddminLoop test fuel steps 2

/-- Any removal accepted by the inner loop satisfies the test predicate. -/
lemma findRemoval_some [DecidableEq α] {test : List α → Bool} {steps : List α}
    {ds : List (List α)} {r : List α}
    (h : findRemoval test steps ds = some r) : test r = true := by
  induction ds with
  | nil => simp [findRemoval] at h
  | cons d ds ih =>
    rw [findRemoval] at h
    split at h
    · next hb => cases h; exact hb
    · next hb => exact ih h

/-- Invariant of the minimization loop: a returned step set either was reduced
under the guard of the test predicate or is the unreduced input. -/
lemma ddminLoop_some [DecidableEq α] (test : List α → Bool) :
    ∀ (fuel : Nat) (steps : List α) (n : Nat) (S' : List α),
      2 ≤ steps.length ∨ test steps = true →
      ddminLoop test fuel steps n = some S' → test S' = true := by
  intro fuel
  induction fuel with
  | zero => intro steps n S' _ h; simp [ddminLoop] at h
  | succ f ih =>
    intro steps n S' hinv h
    rw [ddminLoop] at h
    by_cases hlen : steps.length < 2
    · rw [if_pos hlen] at h
      rcases hinv with h2 | ht
      · omega
      · cases h; exact ht
    · rw [if_neg hlen] at h
      rcases hr : findRemoval test steps (_split_into_subsets steps n) with _ | r
      · rw [hr] at h
        exact ih steps (min (n * 2) steps.length) S' (Or.inl (by omega)) h
      · rw [hr] at h
        exact ih r (max (n - 1) 2) S' (Or.inr (findRemoval_some hr)) h

/-- Claim C2: for every list of steps with at least two elements and every
test predicate, if `_delta_minimization_algorithm` returns a step set `S'`
(i.e. its loop terminates, modelled by some sufficient fuel), then the test
on `S'` still reports failure; each intermediate reduction is kept only when
the test on the remaining steps still fails (lemma `findRemoval_some`). -/
theorem ddmin_soundness [DecidableEq α] (test : List α → Bool) (fuel : Nat)
    (steps S' : List α) (h2 : 2 ≤ steps.length)
    (hret : _delta_minimization_algorithm test fuel steps = some S') :
    test S' = true :=
  ddminLoop_some test fuel steps 2 S' (Or.inl h2) hret

/-- Witness for C2: on steps `[0, 1, 2]` with the source's own predicate the
minimizer terminates with `[2]`, and the predicate holds of the result. -/
theorem ddmin_soundness_witness : _test_steps_still_fail ([2] : List ℕ) = true :=
  ddmin_soundness _test_steps_still_fail 9 [0, 1, 2] [2] (by decide)
    (by rw [_test_steps_still_fail_funext]; decide)

/-- Claim C3 (refuting evidence): the minimization loop of
`_delta_minimization_algorithm` need not terminate.  On two identical steps
with the source's own `__test_steps_still_fail` predicate, every subset removal
leaves an empty remainder which the predicate rejects, `n` stays at
`min (2*n) |S| = |S| = 2`, and — the source `while` loop having no `break`
and never consulting `minimization_timeout` — no amount of fuel makes the
loop return. -/
theorem ddmin_nontermination :
    ∀ fuel : Nat,
      _delta_minimization_algorithm _test_steps_still_fail fuel ([0, 0] : List ℕ) = none := by
  intro fuel
  unfold _delta_minimization_algorithm
  rw [_test_steps_still_fail_funext]
  induction fuel with
  | zero => rfl
  | succ f ih =>
    have hstep :
        ddminLoop (fun l : List ℕ => decide (0 < l.length)) (f + 1) ([0, 0] : List ℕ) 2 =
          ddminLoop (fun l : List ℕ => decide (0 < l.length)) f ([0, 0] : List ℕ) 2 := rfl
    exact hstep.trans ih

/-- Expanding the sum of squared deviations about an arbitrary center. -/
lemma sum_map_sub_sq (c : ℚ) (l : List ℚ) :
    (l.map (fun x => (x - c) ^ 2)).sum =
      (l.map (fun x => x ^ 2)).sum - 2 * c * l.sum + l.length * c ^ 2 := by
  induction l with
  | nil => simp
  | cons x xs ih =>
    simp only [List.map_cons, List.sum_cons, ih, List.length_cons]
    push_cast
    ring

/-- The binary pass sequence of `_calculate_stability_metrics` sums to the
number of passing runs. -/
lemma binary_sum (rs : List RunResult) :
    (rs.map (fun r => if r.passed then (1 : ℚ) else 0)).sum =
      ((rs.filter (·.passed)).length : ℚ) := by
  induction rs with
  | nil => simp
  | cons r rs ih =>
    by_cases h : r.passed
    · simp only [List.filter_cons, h, if_pos, List.map_cons, List.sum_cons, ih,
        List.length_cons]
      push_cast
      ring
    · simp [List.filter_cons, h, ih]

/-- Squaring is the identity on the binary pass sequence. -/
lemma binary_sq_sum (rs : List RunResult) :
    ((rs.map (fun r => if r.passed then (1 : ℚ) else 0)).map (fun x => x ^ 2)).sum =
      (rs.map (fun r => if r.passed then (1 : ℚ) else 0)).sum := by
  induction rs with
  | cons r rs ih =>
    simp only [List.map_cons, List.sum_cons, ih]
    by_cases h : r.passed <;> simp [h]
  | nil => simp

/-- The population variance of a binary sequence with `k` ones among `n`
entries is `k * (n - k) / n ^ 2`. -/
lemma popVar_binary (rs : List RunResult) (hne : rs ≠ []) :
    popVar (rs.map (fun r => if r.passed then (1 : ℚ) else 0)) =
      ((rs.filter (·.passed)).length : ℚ) *
          ((rs.length : ℚ) - ((rs.filter (·.passed)).length : ℚ)) /
        (rs.length : ℚ) ^ 2 := by
  have hn : (rs.length : ℚ) ≠ 0 := by
    simpa using List.length_pos.mpr hne |>.ne'
  unfold popVar
  rw [List.length_map, sum_map_sub_sq, binary_sq_sum, binary_sum]
  field_simp
  ring

/-- Every entry of the binary pass sequence is zero or one. -/
lemma binary_mem (rs : List RunResult) (x : ℚ)
    (hx : x ∈ rs.map (fun r => if r.passed then (1 : ℚ) else 0)) :
    x = 1 ∨ x = 0 := by
  rcases List.mem_map.mp hx with ⟨r, _, hr⟩
  by_cases h : r.passed
  · left; rw [← hr, if_pos h]
  · right; rw [← hr, if_neg h]

lemma one_mem_binary_iff (rs : List RunResult) :
    (1 : ℚ) ∈ rs.map (fun r => if r.passed then (1 : ℚ) else 0) ↔
      ∃ r ∈ rs, r.passed = true := by
  rw [List.mem_map]
  constructor
  · rintro ⟨r, hr, hv⟩
    by_cases h : r.passed
    · exact ⟨r, hr, h⟩
    · rw [if_neg h] at hv; norm_num at hv
  · rintro ⟨r, hr, h⟩
    exact ⟨r, hr, by rw [h]; norm_num⟩

lemma zero_mem_binary_iff (rs : List RunResult) :
    (0 : ℚ) ∈ rs.map (fun r => if r.passed then (1 : ℚ) else 0) ↔
      ∃ r ∈ rs, r.passed = false := by
  rw [List.mem_map]
  constructor
  · rintro ⟨r, hr, hv⟩
    by_cases h : r.passed
    · rw [if_pos h] at hv; norm_num at hv
    · exact ⟨r, hr, by simpa using h⟩
  · rintro ⟨r, hr, h⟩
    refine ⟨r, hr, ?_⟩
    rw [if_neg (by simp [h])]

/-- Some run passed iff the pass count is positive. -/
lemma exists_passed_iff (rs : List RunResult) :
    (∃ r ∈ rs, r.passed = true) ↔ 0 < (rs.filter (·.passed)).length := by
  rw [List.length_pos]
  constructor
  · rintro ⟨r, hr, h⟩
    exact List.ne_nil_of_mem (List.mem_filter.mpr ⟨hr, h⟩)
  · intro h
    rcases List.exists_mem_of_ne_nil _ h with ⟨r, hr⟩
    rcases List.mem_filter.mp hr with ⟨hmem, hp⟩
    exact ⟨r, hmem, hp⟩

/-- Some run failed iff the pass count is below the run count. -/
lemma exists_failed_iff (rs : List RunResult) :
    (∃ r ∈ rs, r.passed = false) ↔ (rs.filter (·.passed)).length < rs.length := by
  induction rs with
  | nil => simp
  | cons r rs ih =>
    by_cases h : r.passed
    · have hf : ((r :: rs).filter (·.passed)) = r :: rs.filter (·.passed) := by
        simp [List.filter_cons, h]
      rw [hf, List.length_cons, List.length_cons]
      constructor
      · rintro ⟨x, hx, hxf⟩
        rcases List.mem_cons.mp hx with rfl | hx'
        · rw [h] at hxf; cases hxf
        · have := ih.mp ⟨x, hx', hxf⟩; omega
      · intro hlt
        rcases ih.mpr (by omega) with ⟨x, hx, hxf⟩
        exact ⟨x, List.mem_cons_of_mem _ hx, hxf⟩
    · have hf : ((r :: rs).filter (·.passed)) = rs.filter (·.passed) := by
        simp [List.filter_cons, h]
      have hlen := List.length_filter_le (fun r : RunResult => r.passed) rs
      rw [hf, List.length_cons]
      constructor
      · intro _; omega
      · intro _
        exact ⟨r, List.mem_cons_self _ _, by simpa using h⟩

/-- The source's mixedness test `len(set(results_binary)) > 1` holds iff the
runs contain both a pass and a fail. -/
lemma mixed_iff (rs : List RunResult) :
    1 < (rs.map (fun r => if r.passed then (1 : ℚ) else 0)).dedup.length ↔
      0 < (rs.filter (·.passed)).length ∧
        (rs.filter (·.passed)).length < rs.length := by
  rw [← exists_passed_iff, ← exists_failed_iff, ← one_mem_binary_iff, ← zero_mem_binary_iff]
  set b := rs.map (fun r => if r.passed then (1 : ℚ) else 0) with hb
  constructor
  · intro hlen
    rcases hd : b.dedup with _ | ⟨v, _ | ⟨w, tl⟩⟩
    · rw [hd] at hlen; simp at hlen
    · rw [hd] at hlen; simp at hlen
    · have hnd := b.nodup_dedup
      rw [hd] at hnd
      have hvw : v ≠ w := by
        intro hvw
        rw [hvw] at hnd
        exact (List.nodup_cons.mp hnd).1 (List.mem_cons_self _ _)
      have hv : v ∈ b := b.dedup_sublist.subset (hd ▸ List.mem_cons_self _ _)
      have hw : w ∈ b := b.dedup_sublist.subset
        (hd ▸ List.mem_cons_of_mem _ (List.mem_cons_self _ _))
      rcases binary_mem rs v hv with hv1 | hv0 <;> rcases binary_mem rs w hw with hw1 | hw0
      · exact absurd (hv1.trans hw1.symm) hvw
      · exact ⟨hv1 ▸ hv, hw0 ▸ hw⟩
      · exact ⟨hw1 ▸ hw, hv0 ▸ hv⟩
      · exact absurd (hv0.trans hw0.symm) hvw
  · rintro ⟨h1, h0⟩
    have h1d : (1 : ℚ) ∈ b.dedup := List.mem_dedup.mpr h1
    have h0d : (0 : ℚ) ∈ b.dedup := List.mem_dedup.mpr h0
    rcases hd : b.dedup with _ | ⟨v, _ | ⟨w, tl⟩⟩
    · rw [hd] at h1d; simp at h1d
    · rw [hd] at h1d h0d
      simp only [List.mem_singleton] at h1d h0d
      norm_num [← h1d] at h0d
    · simp

/-- Claim C1: for nonempty run results, `_calculate_stability_metrics` returns
`stability_score` = passes / runs, `flaky_score` = the population variance of
the binary pass sequence (which equals `k(n-k)/n²`) when both outcomes occur
and 0 otherwise, and the classification chain stable / mostly_stable (rate ≥
0.8) / unstable (rate ≥ 0.5) / very_unstable, the rate thresholds being stated
here in the equivalent integer form. -/
theorem stability_metrics_spec (rs : List RunResult) (n k : ℕ) (hne : rs ≠ [])
    (hn : n = rs.length) (hk : k = (rs.filter (·.passed)).length) :
    (_calculate_stability_metrics rs).stability_score = (k : ℚ) / (n : ℚ) ∧
    (_calculate_stability_metrics rs).flaky_score =
      (if 0 < k ∧ k < n then ((k : ℚ) * ((n : ℚ) - (k : ℚ))) / (n : ℚ) ^ 2 else 0) ∧
    (_calculate_stability_metrics rs).stability_class =
      some (if k = n then "stable"
        else if 4 * n ≤ 5 * k then "mostly_stable"
        else if n ≤ 2 * k then "unstable"
        else "very_unstable") := by
  subst hn hk
  set k := (rs.filter (·.passed)).length with hk
  set n := rs.length with hnn
  have hn0 : 0 < n := List.length_pos.mpr hne
  have hnq : (0 : ℚ) < (n : ℚ) := by exact_mod_cast hn0
  have e1 : ((4 : ℚ) / 5 ≤ (k : ℚ) / (n : ℚ)) ↔ 4 * n ≤ 5 * k := by
    rw [div_le_div_iff₀ (by norm_num) hnq]
    constructor
    · intro h
      have : 4 * n ≤ k * 5 := by exact_mod_cast h
      omega
    · intro h
      have : 4 * n ≤ k * 5 := by omega
      exact_mod_cast this
  have e2 : ((1 : ℚ) / 2 ≤ (k : ℚ) / (n : ℚ)) ↔ n ≤ 2 * k := by
    rw [div_le_div_iff₀ (by norm_num) hnq]
    constructor
    · intro h
      have : 1 * n ≤ k * 2 := by exact_mod_cast h
      omega
    · intro h
      have : 1 * n ≤ k * 2 := by omega
      exact_mod_cast this
  have hrec : _calculate_stability_metrics rs =
      { stability_score := (k : ℚ) / (n : ℚ),
        flaky_score :=
          if 1 < (rs.map (fun r => if r.passed then (1 : ℚ) else 0)).dedup.length
            then popVar (rs.map (fun r => if r.passed then (1 : ℚ) else 0)) else 0,
        consistency_score := 1 -
          (if 1 < (rs.map (fun r => if r.passed then (1 : ℚ) else 0)).dedup.length
            then popVar (rs.map (fun r => if r.passed then (1 : ℚ) else 0)) else 0),
        stability_class :=
          some (if (k : ℚ) / (n : ℚ) = 1 then "stable"
            else if 4/5 ≤ (k : ℚ) / (n : ℚ) then "mostly_stable"
            else if 1/2 ≤ (k : ℚ) / (n : ℚ) then "unstable"
            else "very_unstable") } := by
    unfold _calculate_stability_metrics
    rw [if_neg hne]
  rw [hrec]
  refine ⟨rfl, ?_, ?_⟩
  · show (if 1 < (rs.map (fun r => if r.passed then (1 : ℚ) else 0)).dedup.length
        then popVar (rs.map (fun r => if r.passed then (1 : ℚ) else 0)) else 0) = _
    by_cases hmix : 0 < k ∧ k < n
    · rw [if_pos ((mixed_iff rs).mpr hmix), if_pos hmix]
      exact popVar_binary rs hne
    · rw [if_neg (fun h => hmix ((mixed_iff rs).mp h)), if_neg hmix]
  · show some (if (k : ℚ) / (n : ℚ) = 1 then "stable"
        else if 4/5 ≤ (k : ℚ) / (n : ℚ) then "mostly_stable"
        else if 1/2 ≤ (k : ℚ) / (n : ℚ) then "unstable"
        else "very_unstable") = _
    by_cases h1 : k = n
    · rw [if_pos (by rw [h1, div_self hnq.ne']), if_pos h1]
    · have hrate_ne : ¬ ((k : ℚ) / (n : ℚ) = 1) := fun hr =>
        h1 (by exact_mod_cast (div_eq_one_iff_eq hnq.ne').mp hr)
      rw [if_neg hrate_ne, if_neg h1]
      by_cases h2 : 4 * n ≤ 5 * k
      · rw [if_pos (e1.mpr h2), if_pos h2]
      · rw [if_neg (fun hc => h2 (e1.mp hc)), if_neg h2]
        by_cases h3 : n ≤ 2 * k
        · rw [if_pos (e2.mpr h3), if_pos h3]
        · rw [if_neg (fun hc => h3 (e2.mp hc)), if_neg h3]

/-- Witness for C1 on the run pattern pass-pass-fail-pass-fail:
`stability_score = 3/5`, `flaky_score = 3·(5−3)/25 = 0.24`, classification
`unstable`, matching the spec's seed scenario. -/
theorem stability_metrics_spec_witness :
    (_calculate_stability_metrics
        [⟨true, 10⟩, ⟨true, 10⟩, ⟨false, 10⟩, ⟨true, 10⟩, ⟨false, 10⟩]).stability_score =
      ((3 : ℕ) : ℚ) / ((5 : ℕ) : ℚ) ∧
    (_calculate_stability_metrics
        [⟨true, 10⟩, ⟨true, 10⟩, ⟨false, 10⟩, ⟨true, 10⟩, ⟨false, 10⟩]).flaky_score =
      (if 0 < 3 ∧ 3 < 5 then (((3 : ℕ) : ℚ) * (((5 : ℕ) : ℚ) - ((3 : ℕ) : ℚ))) / ((5 : ℕ) : ℚ) ^ 2
        else 0) ∧
    (_calculate_stability_metrics
        [⟨true, 10⟩, ⟨true, 10⟩, ⟨false, 10⟩, ⟨true, 10⟩, ⟨false, 10⟩]).stability_class =
      some (if (3 : ℕ) = 5 then "stable"
        else if 4 * 5 ≤ 5 * 3 then "mostly_stable"
        else if 5 ≤ 2 * 3 then "unstable"
        else "very_unstable") :=
  stability_metrics_spec
    [⟨true, 10⟩, ⟨true, 10⟩, ⟨false, 10⟩, ⟨true, 10⟩, ⟨false, 10⟩] 5 3
    (by decide) rfl rfl

/-! ## Signal worker (`workers/signal-worker/worker.py`) -/

/-- One page of a parsed HAR file; only `pageTimings.onLoad` is read by the
summary computation, `none` standing for a missing key (read with default
`0`). -/
structure HarPage where
  onLoad : Option ℚ
deriving Repr, DecidableEq

/-- One entry of a parsed HAR file; the summary reads `response.status`
(default `0`) and `response.content.size` (default `0`). -/
structure HarEntry where
  status : Option ℤ
  size : Option ℤ
deriving Repr, DecidableEq

structure HarSummary where
  total_requests : ℕ
  failed_requests : ℕ
  total_size : ℤ
  load_time : ℚ
deriving Repr, DecidableEq

/-- Python's `max` over a nonempty list (`0` on the empty list, on which the
source never calls it). -/
def listMax : List ℚ → ℚ
  | [] => 0
  | x :: xs => xs.foldl max x

/-- Summary part of `parse_har_file`.  File IO and JSON decoding are elided:
the input is the decoded `log.pages` / `log.entries` content.  The per-entry
`parsed_entry` records do not feed the summary and are not modelled. -/
def parse_har_file (pages : List HarPage) (entries : List HarEntry) : HarSummary :=
  let failed_requests := (entries.filter (fun e => 400 ≤ e.status.getD 0)).length
  let total_size := entries.foldl
    (fun acc e => if 0 < e.size.getD 0 then acc + e.size.getD 0 else acc) 0
  let load_times := (pages.map (fun p => p.onLoad.getD 0)).filter (fun t => decide (0 < t))
  let load_time : ℚ :=
    if pages = [] then 0 else if load_times = [] then 0 else listMax load_times
  { total_requests := entries.length, failed_requests := failed_requests,
    total_size := total_size, load_time := load_time }

/-- Error signature dict as produced by `_extract_error_signature` (the
`frequency` field is set to `1` there) and consumed by clustering and
persistence. -/
structure Signature where
  signature_hash : String
  error_type : String
  message : String
  details : Option String
  stack_trace : Option String
  key_components : List String
  severity : String
  frequency : ℕ
deriving Repr, DecidableEq, Inhabited

/-- Row of the `error_signatures` table as touched by
`save_clustered_signatures` (columns the upsert never reads back are
omitted; `updated_at` is `none` until the first conflicting re-insert). -/
structure SigRow where
  signature_hash : String
  report_id : String
  frequency : ℕ
  updated_at : Option ℕ
deriving Repr, DecidableEq

/-- The `INSERT ... ON CONFLICT (signature_hash) DO UPDATE SET frequency =
error_signatures.frequency + 1, updated_at = NOW()` statement, as the
corresponding list transformation on a table with unique `signature_hash`. -/
def upsertSignature (now : ℕ) (report_id : String) (db : List SigRow)
    (s : Signature) : List SigRow :=
  if db.any (fun r => r.signature_hash = s.signature_hash) then
    db.map (fun r =>
      if r.signature_hash = s.signature_hash then
        { r with frequency := r.frequency + 1, updated_at := some now }
      else r)
  else
    db ++ [{ signature_hash := s.signature_hash, report_id := report_id,
             frequency := s.frequency, updated_at := none }]

/-- `save_clustered_signatures`: one upsert per clustered signature. -/
def save_clustered_signatures (now : ℕ) (report_id : String) (db : List SigRow)
    (signatures : List Signature) : List SigRow :=
  signatures.foldl (upsertSignature now report_id) db

/-- `_find_common_pattern`: `min(messages, key=len)` — the first message of
minimal length. -/
def minByLen : List String → String
  | [] => ""
  | m :: ms => ms.foldl (fun best x => if x.length < best.length then x else best) m

def _find_common_pattern (messages : List String) : String := minByLen messages

/-- `_merge_cluster_signatures`: representative = copy of the first signature,
with `key_components` unioned (Python `list(set(...))`; only membership is
observable downstream, modelled by `dedup`), `frequency` = cluster size, and
`message` replaced by the shortest message when the messages differ. -/
def _merge_cluster_signatures (signatures : List Signature) : Signature :=
  let primary := signatures.headI
  let all_components := (signatures.map (·.key_components)).flatten
  let messages := signatures.map (·.message)
  { primary with
    key_components := all_components.dedup,
    frequency := signatures.length,
    message :=
      if 1 < messages.dedup.length then _find_common_pattern messages
      else primary.message }

/-- Cluster keys of `cluster_error_signatures`: the DBSCAN label for clustered
points (`Sum.inl`), the synthetic per-index `noise_<i>` key for label `-1`
(`Sum.inr`). -/
def withClusterKeys : ℕ → List (Signature × ℤ) → List ((ℤ ⊕ ℕ) × Signature)
  | _, [] => []
  | i, (s, lab) :: rest =>
    ((if lab = -1 then Sum.inr i else Sum.inl lab), s) :: withClusterKeys (i + 1) rest

/-- Grouping by key in first-occurrence order, as a Python dict-of-lists
built by insertion does. -/
def partitionByFirst [DecidableEq κ] : List (κ × α) → List (List (κ × α))
  | [] => []
  | p :: rest =>
    (p :: rest.filter (fun q => q.1 = p.1)) ::
      partitionByFirst (rest.filter (fun q => ¬ q.1 = p.1))
termination_by l => l.length
decreasing_by
  have := List.length_filter_le (fun q : κ × α => decide (¬ q.1 = p.1)) rest
  simp only [List.length_cons]
  omega

/-- `cluster_error_signatures` with the embedding model and DBSCAN treated as
an opaque labelling (`labels[i] = -1` marks a noise point): group the
signatures by cluster key, merge every group of more than one signature,
pass singleton groups through unchanged.  (The `cluster_id` annotation the
source adds to each copy has no observable effect on the claims and is not
modelled.) -/
def cluster_error_signatures (signatures : List Signature) (labels : List ℤ) :
    List Signature :=
  if signatures = [] then signatures
  else
    let keyed := withClusterKeys 0 (signatures.zip labels)
    let groups := partitionByFirst keyed
    (groups.map (fun g =>
      if 1 < g.length then [_merge_cluster_signatures (g.map (·.2))]
      else g.map (·.2))).flatten

lemma le_foldl_max (xs : List ℚ) (a : ℚ) : a ≤ xs.foldl max a := by
  induction xs generalizing a with
  | nil => simp
  | cons x xs ih => exact le_trans (le_max_left a x) (ih (max a x))

lemma mem_le_foldl_max (xs : List ℚ) : ∀ (a x : ℚ), x ∈ xs → x ≤ xs.foldl max a := by
  induction xs with
  | nil => intro a x hx; cases hx
  | cons y ys ih =>
    intro a x hx
    rcases List.mem_cons.mp hx with rfl | hx'
    · exact le_trans (le_max_right a x) (le_foldl_max ys (max a x))
    · exact ih (max a y) x hx'

lemma foldl_max_mem (xs : List ℚ) : ∀ a : ℚ, xs.foldl max a = a ∨ xs.foldl max a ∈ xs := by
  induction xs with
  | nil => intro a; left; rfl
  | cons y ys ih =>
    intro a
    rcases ih (max a y) with h | h
    · rcases max_choice a y with hm | hm
      · left; rw [List.foldl_cons, h, hm]
      · right
        rw [List.foldl_cons, h, hm]
        exact List.mem_cons_self _ _
    · right; exact List.mem_cons_of_mem _ h

lemma le_listMax {l : List ℚ} {x : ℚ} (hx : x ∈ l) : x ≤ listMax l := by
  cases l with
  | nil => cases hx
  | cons y ys =>
    show x ≤ ys.foldl max y
    rcases List.mem_cons.mp hx with rfl | hx'
    · exact le_foldl_max ys x
    · exact mem_le_foldl_max ys y x hx'

lemma listMax_mem {l : List ℚ} (h : l ≠ []) : listMax l ∈ l := by
  cases l with
  | nil => exact absurd rfl h
  | cons y ys =>
    show ys.foldl max y ∈ y :: ys
    rcases foldl_max_mem ys y with h' | h'
    · rw [h']; exact List.mem_cons_self _ _
    · exact List.mem_cons_of_mem _ h'

/-- Claim C7: the HAR summary counts exactly the entries with response status
at least 400 (missing status read as 0) as failed, and its `load_time` is the
maximum `onLoad` timing across pages when some page has a positive timing and
0 otherwise. -/
theorem har_summary_spec (pages : List HarPage) (entries : List HarEntry) :
    (parse_har_file pages entries).total_requests = entries.length ∧
    (parse_har_file pages entries).failed_requests =
      (entries.filter (fun e => 400 ≤ e.status.getD 0)).length ∧
    (parse_har_file pages entries).load_time =
      (if (pages.map (fun p => p.onLoad.getD 0)).any (fun t => decide (0 < t))
        then listMax (pages.map (fun p => p.onLoad.getD 0)) else 0) := by
  refine ⟨rfl, rfl, ?_⟩
  show (if pages = [] then (0 : ℚ)
      else if (pages.map (fun p => p.onLoad.getD 0)).filter (fun t => decide (0 < t)) = []
        then 0
        else listMax ((pages.map (fun p => p.onLoad.getD 0)).filter (fun t => decide (0 < t)))) = _
  set m := pages.map (fun p => p.onLoad.getD 0) with hm
  by_cases hany : m.any (fun t => decide (0 < t)) = true
  · obtain ⟨t, htm, htpos'⟩ := List.any_eq_true.mp hany
    have htpos : (0 : ℚ) < t := by simpa using htpos'
    have hpages : pages ≠ [] := by
      intro h
      rw [h] at hm
      simp only [List.map_nil] at hm
      rw [hm] at htm
      cases htm
    have hposne : m.filter (fun t => decide (0 < t)) ≠ [] :=
      List.ne_nil_of_mem (List.mem_filter.mpr ⟨htm, by simpa using htpos⟩)
    rw [if_neg hpages, if_neg hposne, if_pos hany]
    apply le_antisymm
    · exact le_listMax (List.mem_filter.mp (listMax_mem hposne)).1
    · have hmne : m ≠ [] := List.ne_nil_of_mem htm
      have hpos : (0 : ℚ) < listMax m := lt_of_lt_of_le htpos (le_listMax htm)
      exact le_listMax (List.mem_filter.mpr ⟨listMax_mem hmne, by simpa using hpos⟩)
  · rw [if_neg hany]
    have hallneg : ∀ x ∈ m, ¬ (0 : ℚ) < x := by
      intro x hx hpos
      exact hany (List.any_eq_true.mpr ⟨x, hx, by simpa using hpos⟩)
    by_cases hp : pages = []
    · rw [if_pos hp]
    · rw [if_neg hp, if_pos (List.filter_eq_nil_iff.mpr (fun x hx => by simpa using hallneg x hx))]

/-- Claim C4 (refuting instance): upserting a clustered signature with
incoming `frequency = 2` onto an existing row with `frequency = 3` stores
`4 = 3 + 1`, not `5 = 3 + 2`: the `ON CONFLICT` clause adds `1`, not the
incoming signature's frequency. -/
theorem signature_upsert_counterexample :
    (save_clustered_signatures 7 "r" [⟨"h", "r", 3, none⟩]
        [⟨"h", "GenericError", "m", none, none, [], "high", 2⟩]).map
      (fun r => r.frequency) = [4] ∧ (3 + 2 : ℕ) ≠ 4 := by
  constructor
  · rfl
  · decide

/-- Rewriting the conflicting rows preserves the stored hashes. -/
lemma bump_map_hash (now : ℕ) (s : Signature) (db : List SigRow) :
    (db.map (fun r =>
        if r.signature_hash = s.signature_hash then
          { r with frequency := r.frequency + 1, updated_at := some now }
        else r)).map (·.signature_hash) =
      db.map (·.signature_hash) := by
  induction db with
  | nil => rfl
  | cons r rs ih => by_cases hc : r.signature_hash = s.signature_hash <;> simp [hc, ih]

/-- A single upsert preserves uniqueness of `signature_hash` in the table. -/
lemma upsert_hash_nodup (now : ℕ) (rid : String) (db : List SigRow) (s : Signature)
    (h : (db.map (·.signature_hash)).Nodup) :
    ((upsertSignature now rid db s).map (·.signature_hash)).Nodup := by
  unfold upsertSignature
  by_cases hany : db.any (fun r => r.signature_hash = s.signature_hash) = true
  · rw [if_pos hany, bump_map_hash]
    exact h
  · rw [if_neg hany, List.map_append]
    refine List.nodup_append.mpr ⟨h, List.nodup_singleton _, ?_⟩
    intro a ha hb
    simp only [List.map_cons, List.map_nil, List.mem_singleton] at hb
    rcases List.mem_map.mp ha with ⟨r, hr, hhash⟩
    exact hany (List.any_eq_true.mpr ⟨r, hr, by simp [hhash, hb]⟩)

/-- Claim C4 (amended form): `save_clustered_signatures` is an upsert keyed by
`signature_hash`; on conflict the stored frequency is increased by one (not by
the incoming signature's frequency) and `updated_at` is set to now; without
conflict the incoming signature is appended as a fresh row; and replaying
persists never creates a second row for the same hash (hash uniqueness is
preserved by every sequence of upserts). -/
theorem signature_upsert_spec (now : ℕ) (rid : String) (db : List SigRow)
    (s : Signature) (sigs : List Signature) :
    ((∃ r ∈ db, r.signature_hash = s.signature_hash) →
      (upsertSignature now rid db s).length = db.length ∧
      ∀ r ∈ db, r.signature_hash = s.signature_hash →
        { r with frequency := r.frequency + 1, updated_at := some now } ∈
          upsertSignature now rid db s) ∧
    ((∀ r ∈ db, r.signature_hash ≠ s.signature_hash) →
      upsertSignature now rid db s =
        db ++ [{ signature_hash := s.signature_hash, report_id := rid,
                 frequency := s.frequency, updated_at := none }]) ∧
    ((db.map (·.signature_hash)).Nodup →
      ((save_clustered_signatures now rid db sigs).map (·.signature_hash)).Nodup) := by
  refine ⟨?_, ?_, ?_⟩
  · rintro ⟨r0, hr0, hh0⟩
    have hany : db.any (fun r => r.signature_hash = s.signature_hash) = true :=
      List.any_eq_true.mpr ⟨r0, hr0, by simp [hh0]⟩
    unfold upsertSignature
    rw [if_pos hany]
    refine ⟨List.length_map _ _, ?_⟩
    intro r hr hh
    refine List.mem_map.mpr ⟨r, hr, ?_⟩
    rw [if_pos hh]
  · intro hall
    have hany : ¬ db.any (fun r => r.signature_hash = s.signature_hash) = true := by
      intro hc
      obtain ⟨r, hr, hp⟩ := List.any_eq_true.mp hc
      exact hall r hr (by simpa using hp)
    unfold upsertSignature
    rw [if_neg hany]
  · intro hnd
    induction sigs generalizing db with
    | nil => exact hnd
    | cons s0 rest ih =>
      show ((save_clustered_signatures now rid (upsertSignature now rid db s0) rest).map
        (·.signature_hash)).Nodup
      exact ih (upsertSignature now rid db s0) (upsert_hash_nodup now rid db s0 hnd)

/-- Witness for the amended C4 at a concrete conflicting upsert. -/
theorem signature_upsert_spec_witness :
    (upsertSignature 7 "r" [⟨"h", "r", 3, none⟩]
        ⟨"h", "GenericError", "m", none, none, [], "high", 2⟩).length = 1 ∧
    ((save_clustered_signatures 7 "r" [⟨"h", "r", 3, none⟩]
        [⟨"h", "GenericError", "m", none, none, [], "high", 2⟩]).map
      (·.signature_hash)).Nodup := by
  have h := signature_upsert_spec 7 "r" [⟨"h", "r", 3, none⟩]
    ⟨"h", "GenericError", "m", none, none, [], "high", 2⟩
    [⟨"h", "GenericError", "m", none, none, [], "high", 2⟩]
  exact ⟨(h.1 ⟨⟨"h", "r", 3, none⟩, by simp, rfl⟩).1, h.2.2 (by simp)⟩

lemma length_filter_key_split [DecidableEq κ] (l : List (κ × α)) (k : κ) :
    (l.filter (fun q => q.1 = k)).length +
      (l.filter (fun q => ¬ q.1 = k)).length = l.length := by
  induction l with
  | nil => rfl
  | cons q rest ih =>
    by_cases h : q.1 = k
    · have h1 : ((q :: rest).filter (fun q => q.1 = k)) =
          q :: rest.filter (fun q => q.1 = k) := by
        simp [List.filter_cons, h]
      have h2 : ((q :: rest).filter (fun q => ¬ q.1 = k)) =
          rest.filter (fun q => ¬ q.1 = k) := by
        simp [List.filter_cons, h]
      rw [h1, h2, List.length_cons, List.length_cons]
      omega
    · have h1 : ((q :: rest).filter (fun q => q.1 = k)) =
          rest.filter (fun q => q.1 = k) := by
        simp [List.filter_cons, h]
      have h2 : ((q :: rest).filter (fun q => ¬ q.1 = k)) =
          q :: rest.filter (fun q => ¬ q.1 = k) := by
        simp [List.filter_cons, h]
      rw [h1, h2, List.length_cons, List.length_cons]
      omega

/-- The groups of `partitionByFirst` have total size the input size. -/
lemma partitionByFirst_length_sum [DecidableEq κ] (l : List (κ × α)) :
    ((partitionByFirst l).map List.length).sum = l.length := by
  suffices h : ∀ (N : ℕ) (l : List (κ × α)), l.length ≤ N →
      ((partitionByFirst l).map List.length).sum = l.length from h l.length l le_rfl
  intro N
  induction N with
  | zero =>
    intro l hl
    have hnil : l = [] := List.length_eq_zero.mp (Nat.le_zero.mp hl)
    subst hnil
    simp [partitionByFirst]
  | succ N ih =>
    intro l hl
    cases l with
    | nil => simp [partitionByFirst]
    | cons p rest =>
      simp only [partitionByFirst, List.map_cons, List.sum_cons, List.length_cons]
      have hle : (rest.filter (fun q => ¬ q.1 = p.1)).length ≤ N := by
        have := List.length_filter_le (fun q : κ × α => decide (¬ q.1 = p.1)) rest
        simp only [List.length_cons] at hl
        omega
      rw [ih _ hle]
      have := length_filter_key_split rest p.1
      omega

/-- Every element of a `partitionByFirst` group comes from the input list. -/
lemma partitionByFirst_mem [DecidableEq κ] (l : List (κ × α)) :
    ∀ g ∈ partitionByFirst l, ∀ x ∈ g, x ∈ l := by
  suffices h : ∀ (N : ℕ) (l : List (κ × α)), l.length ≤ N →
      ∀ g ∈ partitionByFirst l, ∀ x ∈ g, x ∈ l from h l.length l le_rfl
  intro N
  induction N with
  | zero =>
    intro l hl
    have hnil : l = [] := List.length_eq_zero.mp (Nat.le_zero.mp hl)
    subst hnil
    intro g hg
    simp [partitionByFirst] at hg
  | succ N ih =>
    intro l hl
    cases l with
    | nil => intro g hg; simp [partitionByFirst] at hg
    | cons p rest =>
      intro g hg x hx
      simp only [partitionByFirst] at hg
      rcases List.mem_cons.mp hg with rfl | hg'
      · rcases List.mem_cons.mp hx with rfl | hx'
        · exact List.mem_cons_self _ _
        · exact List.mem_cons_of_mem _ (List.mem_of_mem_filter hx')
      · have hle : (rest.filter (fun q => ¬ q.1 = p.1)).length ≤ N := by
          have := List.length_filter_le (fun q : κ × α => decide (¬ q.1 = p.1)) rest
          simp only [List.length_cons] at hl
          omega
        exact List.mem_cons_of_mem _
          (List.mem_of_mem_filter (ih _ hle g hg' x hx))

lemma withClusterKeys_length (l : List (Signature × ℤ)) :
    ∀ i : ℕ, (withClusterKeys i l).length = l.length := by
  induction l with
  | nil => intro i; rfl
  | cons q rest ih =>
    intro i
    obtain ⟨s, lab⟩ := q
    simp only [withClusterKeys, List.length_cons, ih]

lemma withClusterKeys_snd_mem (l : List (Signature × ℤ)) :
    ∀ (i : ℕ) (x : (ℤ ⊕ ℕ) × Signature), x ∈ withClusterKeys i l →
      ∃ lab, (x.2, lab) ∈ l := by
  induction l with
  | nil => intro i x hx; cases hx
  | cons q rest ih =>
    intro i x hx
    obtain ⟨s, lab⟩ := q
    simp only [withClusterKeys] at hx
    rcases List.mem_cons.mp hx with rfl | hx'
    · exact ⟨lab, List.mem_cons_self _ _⟩
    · obtain ⟨lab', h⟩ := ih (i + 1) x hx'
      exact ⟨lab', List.mem_cons_of_mem _ h⟩

lemma sum_freq_of_all_one (m : List Signature)
    (h : ∀ x ∈ m, x.frequency = 1) : (m.map (·.frequency)).sum = m.length := by
  induction m with
  | nil => rfl
  | cons s rest ih =>
    simp only [List.map_cons, List.sum_cons, List.length_cons,
      h s (List.mem_cons_self _ _),
      ih (fun x hx => h x (List.mem_cons_of_mem _ hx))]
    omega

/-- Summing the output frequencies group by group:  a merged group contributes
its size, a small group contributes its members' frequencies. -/
lemma groups_freq_sum (groups : List (List ((ℤ ⊕ ℕ) × Signature)))
    (h : ∀ g ∈ groups, ∀ x ∈ g, x.2.frequency = 1) :
    (((groups.map (fun g =>
        if 1 < g.length then [_merge_cluster_signatures (g.map (·.2))]
        else g.map (·.2))).flatten).map (·.frequency)).sum =
      (groups.map List.length).sum := by
  induction groups with
  | nil => rfl
  | cons g gs ih =>
    simp only [List.map_cons, List.flatten_cons, List.map_append, List.sum_append]
    rw [ih (fun g' hg' => h g' (List.mem_cons_of_mem _ hg'))]
    by_cases hg : 1 < g.length
    · rw [if_pos hg]
      simp only [List.map_cons, List.map_nil, List.sum_cons, List.sum_nil]
      have : (_merge_cluster_signatures (g.map (·.2))).frequency = g.length := by
        simp [_merge_cluster_signatures]
      omega
    · rw [if_neg hg]
      have : ((g.map (·.2)).map (·.frequency)).sum = (g.map (·.2)).length := by
        apply sum_freq_of_all_one
        intro x hx
        obtain ⟨p, hp, rfl⟩ := List.mem_map.mp hx
        exact h g (List.mem_cons_self _ _) p hp
      rw [this, List.length_map, List.sum_cons]

/-- Claim C5: when every input signature carries `frequency = 1` (as
`_extract_error_signature` guarantees) and the labelling covers the inputs,
the total frequency over the representatives returned by
`cluster_error_signatures` equals the number of input signatures; each
group of more than one member yields one representative whose frequency is
the group size. -/
theorem cluster_frequency_conservation (sigs : List Signature) (labels : List ℤ)
    (hlen : labels.length = sigs.length)
    (hfreq : ∀ s ∈ sigs, s.frequency = 1) :
    ((cluster_error_signatures sigs labels).map (·.frequency)).sum = sigs.length ∧
    ∀ g ∈ partitionByFirst (withClusterKeys 0 (sigs.zip labels)),
      1 < g.length →
        (_merge_cluster_signatures (g.map (·.2))).frequency = g.length := by
  constructor
  · by_cases hs : sigs = []
    · subst hs
      simp [cluster_error_signatures]
    · unfold cluster_error_signatures
      rw [if_neg hs]
      show ((((partitionByFirst (withClusterKeys 0 (sigs.zip labels))).map (fun g =>
          if 1 < g.length then [_merge_cluster_signatures (g.map (·.2))]
          else g.map (·.2))).flatten).map (·.frequency)).sum = sigs.length
      rw [groups_freq_sum]
      · rw [partitionByFirst_length_sum, withClusterKeys_length,
          List.length_zip, hlen, min_self]
      · intro g hg x hx
        have hxk : x ∈ withClusterKeys 0 (sigs.zip labels) :=
          partitionByFirst_mem _ g hg x hx
        obtain ⟨lab, hmem⟩ := withClusterKeys_snd_mem _ 0 x hxk
        exact hfreq x.2 (List.of_mem_zip hmem).1
  · intro g _ _
    simp [_merge_cluster_signatures]

/-- Witness for C5: signatures `s1, s2` share cluster label 0, `s3` is noise;
the representatives carry frequencies 2 and 1, summing to the input count. -/
theorem cluster_frequency_conservation_witness :
    ((cluster_error_signatures
        [⟨"h1", "TypeError", "m1", none, none, [], "high", 1⟩,
         ⟨"h2", "TypeError", "m2", none, none, [], "high", 1⟩,
         ⟨"h3", "ReferenceError", "m3", none, none, [], "high", 1⟩]
        [0, 0, -1]).map (·.frequency)).sum =
      ([⟨"h1", "TypeError", "m1", none, none, [], "high", 1⟩,
        ⟨"h2", "TypeError", "m2", none, none, [], "high", 1⟩,
        ⟨"h3", "ReferenceError", "m3", none, none, [], "high", 1⟩] :
          List Signature).length :=
  (cluster_frequency_conservation
    [⟨"h1", "TypeError", "m1", none, none, [], "high", 1⟩,
     ⟨"h2", "TypeError", "m2", none, none, [], "high", 1⟩,
     ⟨"h3", "ReferenceError", "m3", none, none, [], "high", 1⟩]
    [0, 0, -1] (by decide) (by decide)).1

/-! ## Map worker (`workers/map-worker/worker.py`, `config.py`) -/

/-- `settings.CHUNK_SIZE` (config default). -/
def CHUNK_SIZE : ℕ := 1000

/-- `settings.CHUNK_OVERLAP` (config default). -/
def CHUNK_OVERLAP : ℕ := 200

/-- Python `str.rfind` for a character class: highest index of a matching
element, `-1` when absent. -/
def rfindIdx (p : α → Bool) (l : List α) : ℤ :=
  l.enum.foldl (fun acc q => if p q.2 then (q.1 : ℤ) else acc) (-1)

/-- Python `str.strip`: drop a whitespace run from both ends (`ws` decides
whitespace; content is kept generic over the token type). -/
def strip (ws : α → Bool) (l : List α) : List α :=
  ((l.dropWhile ws).reverse.dropWhile ws).reverse

/-- End position of the chunk starting at `start` in `_split_content`:
`start + CHUNK_SIZE`, shortened to just after the last `.`/newline of the
window when the source's boundary test fires.  The test compares the
window-relative index `break_point` with `start + CHUNK_SIZE * 0.7`; the float
product `1000 * 0.7` is exactly `700.0`, so the integer reading is exact. -/
def nextEnd (isDot isNl : α → Bool) (content : List α) (start : ℕ) : ℕ :=
  if start + CHUNK_SIZE < content.length then
    let chunk := (content.drop start).take CHUNK_SIZE
    let break_point : ℤ := max (rfindIdx isDot chunk) (rfindIdx isNl chunk)
    if (start : ℤ) + 700 < break_point then start + break_point.toNat + 1
    else start + CHUNK_SIZE
  else start + CHUNK_SIZE

/-- Each chunk ends at least 702 positions after it starts: the boundary test
requires `break_point > start + 700` (so the truncated end is
`start + break_point + 1 ≥ start + 702`), and the untruncated end is
`start + 1000`. -/
lemma nextEnd_lb (isDot isNl : α → Bool) (content : List α) (start : ℕ) :
    start + 702 ≤ nextEnd isDot isNl content start := by
  unfold nextEnd
  by_cases hend : start + CHUNK_SIZE < content.length
  · rw [if_pos hend]
    simp only
    set bp : ℤ := max (rfindIdx isDot ((content.drop start).take CHUNK_SIZE))
      (rfindIdx isNl ((content.drop start).take CHUNK_SIZE)) with hbp
    by_cases hb : (start : ℤ) + 700 < bp
    · rw [if_pos hb]
      omega
    · rw [if_neg hb]
      simp [CHUNK_SIZE]
  · rw [if_neg hend]
    simp [CHUNK_SIZE]

/-- The `while start < len(content)` loop of `_split_content`: emit the
stripped chunk `content[start:end]`, move `start` to `end - CHUNK_OVERLAP`,
stop when the new start passes the end of the content. -/
def splitLoop (isDot isNl ws : α → Bool) (content : List α) (start : ℕ) :
    List (List α) :=
  if _h : start < content.length then
    strip ws ((content.drop start).take (nextEnd isDot isNl content start - start)) ::
      (if nextEnd isDot isNl content start - CHUNK_OVERLAP < content.length then
        splitLoop isDot isNl ws content (nextEnd isDot isNl content start - CHUNK_OVERLAP)
      else [])
  else []
termination_by content.length - start
decreasing_by
  have := nextEnd_lb isDot isNl content start
  simp only [CHUNK_OVERLAP]
  omega

/-- `_split_content` of the Map worker, generic over the token type: `isDot`,
`isNl`, `ws` decide the `'.'`, `'\n'` and whitespace classes of the concrete
character set. -/
def _split_content (isDot isNl ws : α → Bool) (content : List α) : List (List α) :=
  splitLoop isDot isNl ws content 0

lemma strip_of_no_ws (ws : α → Bool) (l : List α) (h : ∀ a ∈ l, ws a = false) :
    strip ws l = l := by
  have h1 : ∀ (m : List α), (∀ a ∈ m, ws a = false) → m.dropWhile ws = m := by
    intro m hm
    cases m with
    | nil => rfl
    | cons a t =>
      rw [List.dropWhile_cons, if_neg (by simp [hm a (List.mem_cons_self _ _)])]
  unfold strip
  rw [h1 l h, h1 l.reverse (fun a ha => h a (List.mem_reverse.mp ha))]
  exact List.reverse_reverse l

lemma drop_take_isInfix (l : List α) (m n : ℕ) : (l.drop m).take n <:+: l :=
  ⟨l.take m, (l.drop m).drop n, by
    rw [List.append_assoc, List.take_append_drop, List.take_append_drop]⟩

/-- A sub-slice of a window equals the corresponding slice of the content. -/
lemma slice_take_eq (l : List α) (s p L e : ℕ) (hsp : s ≤ p) (hpe : p + L ≤ e) :
    (l.drop p).take L = (((l.drop s).take (e - s)).drop (p - s)).take L := by
  rw [List.drop_take, List.take_take, List.drop_drop]
  have h1 : s + (p - s) = p := by omega
  have h2 : L ⊓ (e - s - (p - s)) = L := by omega
  rw [h1, h2]

/-- Coverage invariant of the splitting loop: consecutive chunk windows
overlap in exactly `CHUNK_OVERLAP` positions, so every in-bounds slice of
length at most `CHUNK_OVERLAP + 1` starting at or after the current window
lies wholly inside some emitted chunk (whitespace-free content, so that
stripping is the identity). -/
lemma splitLoop_cover (isDot isNl ws : α → Bool) (content : List α)
    (hws : ∀ a ∈ content, ws a = false) :
    ∀ (N start p L : ℕ), content.length - start ≤ N → start ≤ p → 0 < L →
      L ≤ CHUNK_OVERLAP + 1 → p + L ≤ content.length → start < content.length →
      ∃ c ∈ splitLoop isDot isNl ws content start,
        (content.drop p).take L <:+: c := by
  intro N
  induction N with
  | zero => intro start p L hN hsp h0 hL hpL hslt; omega
  | succ N ih =>
    intro start p L hN hsp h0 hL hpL hslt
    have he := nextEnd_lb isDot isNl content start
    have hL' : L ≤ 201 := by simpa [CHUNK_OVERLAP] using hL
    rw [splitLoop, dif_pos hslt]
    by_cases hcase : p + L ≤ nextEnd isDot isNl content start
    · refine ⟨strip ws ((content.drop start).take (nextEnd isDot isNl content start - start)),
        List.mem_cons_self _ _, ?_⟩
      have hsub : ∀ a ∈ (content.drop start).take (nextEnd isDot isNl content start - start),
          ws a = false :=
        fun a ha => hws a (List.mem_of_mem_drop (List.mem_of_mem_take ha))
      rw [strip_of_no_ws ws _ hsub,
        slice_take_eq content start p L (nextEnd isDot isNl content start) hsp hcase]
      exact drop_take_isInfix _ _ _
    · have hpstart : nextEnd isDot isNl content start - CHUNK_OVERLAP ≤ p := by
        simp only [CHUNK_OVERLAP]
        omega
      have hlt' : nextEnd isDot isNl content start - CHUNK_OVERLAP < content.length := by
        simp only [CHUNK_OVERLAP]
        omega
      have hN' : content.length - (nextEnd isDot isNl content start - CHUNK_OVERLAP) ≤ N := by
        simp only [CHUNK_OVERLAP]
        omega
      obtain ⟨c, hc, hinf⟩ :=
        ih (nextEnd isDot isNl content start - CHUNK_OVERLAP) p L hN' hpstart h0 hL hpL hlt'
      refine ⟨c, ?_, hinf⟩
      rw [if_pos hlt']
      exact List.mem_cons_of_mem _ hc

/-- Claim C6 (amended form): for whitespace-free content, every nonempty
substring of length at most `CHUNK_OVERLAP + 1 = 201` appears wholly inside
at least one chunk produced by `_split_content`; the bound claimed by the
spec, `CHUNK_SIZE − CHUNK_OVERLAP = 800`, does not hold (see the
counterexample), and stripping can remove whitespace at chunk edges. -/
theorem split_content_coverage (isDot isNl ws : α → Bool) (content : List α)
    (hws : ∀ a ∈ content, ws a = false) (p L : ℕ) (h0 : 0 < L)
    (hL : L ≤ CHUNK_OVERLAP + 1) (hpL : p + L ≤ content.length) :
    ∃ c ∈ _split_content isDot isNl ws content, (content.drop p).take L <:+: c :=
  splitLoop_cover isDot isNl ws content hws content.length 0 p L
    (by omega) (Nat.zero_le _) h0 hL hpL (by omega)

/-- Witness for the amended C6: in the 1500-token distinct content, the
201-token slice starting at 950 lies wholly in a chunk. -/
theorem split_content_coverage_witness :
    ∃ c ∈ _split_content (fun _ : ℕ => false) (fun _ => false) (fun _ => false)
        (List.range' 0 1500),
      ((List.range' 0 1500).drop 950).take 201 <:+: c :=
  split_content_coverage (fun _ => false) (fun _ => false) (fun _ => false)
    (List.range' 0 1500) (fun a _ => rfl) 950 201 (by norm_num)
    (by norm_num [CHUNK_OVERLAP]) (by simp [List.length_range'])

lemma range'_drop : ∀ (m s n : ℕ), (List.range' s n).drop m = List.range' (s + m) (n - m) := by
  intro m
  induction m with
  | zero => intro s n; simp
  | succ m ih =>
    intro s n
    cases n with
    | zero => simp
    | succ n =>
      rw [List.range'_succ, List.drop_succ_cons, ih (s + 1) n]
      congr 1 <;> omega

lemma range'_take : ∀ (m s n : ℕ), (List.range' s n).take m = List.range' s (min m n) := by
  intro m
  induction m with
  | zero => intro s n; simp
  | succ m ih =>
    intro s n
    cases n with
    | zero => simp
    | succ n =>
      rw [List.range'_succ, List.take_succ_cons, ih (s + 1) n,
        show min (m + 1) (n + 1) = (min m n) + 1 by omega, List.range'_succ]

lemma foldl_keep {β : Type _} {γ : Type _} (l : List γ) (f : β → γ → β)
    (h : ∀ b c, f b c = b) : ∀ acc : β, l.foldl f acc = acc := by
  induction l with
  | nil => intro acc; rfl
  | cons x xs ih => intro acc; rw [List.foldl_cons, h, ih]

lemma rfindIdx_false (l : List α) : rfindIdx (fun _ => false) l = -1 := by
  unfold rfindIdx
  apply foldl_keep
  intro b c
  simp

lemma nextEnd_range_zero :
    nextEnd (fun _ : ℕ => false) (fun _ => false) (List.range' 0 1500) 0 = 1000 := by
  unfold nextEnd
  rw [if_pos (by simp [CHUNK_SIZE, List.length_range'])]
  simp only [rfindIdx_false]
  norm_num [CHUNK_SIZE]

lemma nextEnd_range_800 :
    nextEnd (fun _ : ℕ => false) (fun _ => false) (List.range' 0 1500) 800 = 1800 := by
  unfold nextEnd
  rw [if_neg (by simp [CHUNK_SIZE, List.length_range'])]
  norm_num [CHUNK_SIZE]

/-- Evaluating the splitter on 1500 distinct whitespace-free tokens with no
sentence boundaries: two chunks, `[0..1000)` and `[800..1500)`. -/
lemma split_content_range_eval :
    _split_content (fun _ : ℕ => false) (fun _ => false) (fun _ => false)
        (List.range' 0 1500) = [List.range' 0 1000, List.range' 800 700] := by
  unfold _split_content
  rw [splitLoop, dif_pos (by simp [List.length_range'])]
  rw [nextEnd_range_zero]
  rw [List.length_range']
  rw [show (1000 : ℕ) - CHUNK_OVERLAP = 800 from by norm_num [CHUNK_OVERLAP]]
  rw [if_pos (by norm_num)]
  have h2 : splitLoop (fun _ : ℕ => false) (fun _ => false) (fun _ => false)
      (List.range' 0 1500) 800 = [List.range' 800 700] := by
    rw [splitLoop, dif_pos (by simp [List.length_range'])]
    rw [nextEnd_range_800]
    rw [List.length_range']
    rw [show (1800 : ℕ) - CHUNK_OVERLAP = 1600 from by norm_num [CHUNK_OVERLAP]]
    rw [if_neg (by norm_num)]
    rw [strip_of_no_ws _ _ (fun a _ => rfl)]
    rw [show (1800 : ℕ) - 800 = 1000 from rfl]
    rw [range'_drop, range'_take]
    norm_num
  rw [h2]
  have h1 : strip (fun _ : ℕ => false) (((List.range' 0 1500).drop 0).take (1000 - 0)) =
      List.range' 0 1000 := by
    rw [strip_of_no_ws _ _ (fun a _ => rfl), List.drop_zero]
    rw [show (1000 : ℕ) - 0 = 1000 from rfl]
    rw [range'_take]
    norm_num
  rw [h1]

/-- Claim C6 (refuting instance): with the default `CHUNK_SIZE = 1000`,
`CHUNK_OVERLAP = 200`, the substring of length `CHUNK_SIZE − CHUNK_OVERLAP =
800` starting at position 300 of a 1500-token content (all tokens distinct, no
whitespace, no sentence boundaries) lies wholly in neither of the two produced
chunks `[0..1000)` and `[800..1500)`. -/
theorem split_content_overlap_counterexample :
    _split_content (fun _ : ℕ => false) (fun _ => false) (fun _ => false)
        (List.range' 0 1500) = [List.range' 0 1000, List.range' 800 700] ∧
    (((List.range' 0 1500).drop 300).take 800).length = CHUNK_SIZE - CHUNK_OVERLAP ∧
    ((List.range' 0 1500).drop 300).take 800 <:+: List.range' 0 1500 ∧
    ¬ ((List.range' 0 1500).drop 300).take 800 <:+: List.range' 0 1000 ∧
    ¬ ((List.range' 0 1500).drop 300).take 800 <:+: List.range' 800 700 := by
  have hsub : ((List.range' 0 1500).drop 300).take 800 = List.range' 300 800 := by
    rw [range'_drop, range'_take]
    norm_num
  refine ⟨split_content_range_eval, ?_, drop_take_isInfix _ _ _, ?_, ?_⟩
  · rw [hsub]
    simp [List.length_range', CHUNK_SIZE, CHUNK_OVERLAP]
  · intro hinf
    have h1 : (1099 : ℕ) ∈ List.range' 0 1000 :=
      hinf.subset (by rw [hsub]; exact List.mem_range'_1.mpr (by omega))
    have := List.mem_range'_1.mp h1
    omega
  · intro hinf
    have h1 : (300 : ℕ) ∈ List.range' 800 700 :=
      hinf.subset (by rw [hsub]; exact List.mem_range'_1.mpr (by omega))
    have := List.mem_range'_1.mp h1
    omega

/-- One result row of `search_documents` as read by `_calculate_confidence`:
only the `similarity` field (`1 − cosine distance`, which may be negative) is
consumed; `file_path`, `chunk_text` and `meta` are never read there. -/
structure DocResult where
  similarity : ℚ
deriving Repr, DecidableEq

/-- `_calculate_confidence` of the Map worker: `0.4`/`0.6` are modelled by the
exact rationals the spec states (the float weights differ from them by less
than 2⁻⁵³ relative error, below anything the claims distinguish). -/
def _calculate_confidence (framework_scores : List (String × ℚ))
    (doc_results : List DocResult) : ℚ :=
  let c1 : ℚ :=
    if framework_scores = [] then 0
    else listMax (framework_scores.map (·.2)) * (2/5)
  let c2 : ℚ :=
    if doc_results = [] then 0
    else ((doc_results.map (·.similarity)).sum / (doc_results.length : ℚ)) * (3/5)
  min (c1 + c2) 1

/-- Modelled from the claim's wording: `0.4 · max(framework_scores) + 0.6 ·
mean(similarity)`, a missing side contributing 0 — with no clamping. -/
def claimConfidence (framework_scores : List (String × ℚ))
    (doc_results : List DocResult) : ℚ :=
  (if framework_scores = [] then 0
    else (2/5) * listMax (framework_scores.map (·.2))) +
  (if doc_results = [] then 0
    else (3/5) * ((doc_results.map (·.similarity)).sum / (doc_results.length : ℚ)))

/-- Claim C8 (refuting instance): with no framework scores and a single
document result of similarity `−1/2` (cosine distance `3/2`, which pgvector
can return), the confidence is `−3/10`: it equals the claimed weighted sum but
lies outside `[0, 1]` — `min(·, 1.0)` clamps only from above. -/
theorem confidence_range_counterexample :
    _calculate_confidence [] [⟨-(1/2)⟩] = -(3/10) ∧
    _calculate_confidence [] [⟨-(1/2)⟩] = claimConfidence [] [⟨-(1/2)⟩] ∧
    ¬ (0 ≤ _calculate_confidence [] [⟨-(1/2)⟩]) := by
  have h : _calculate_confidence [] [⟨-(1/2)⟩] = -(3/10) := by
    unfold _calculate_confidence
    norm_num
  have h' : claimConfidence [] [⟨-(1/2)⟩] = -(3/10) := by
    unfold claimConfidence
    norm_num
  refine ⟨h, by rw [h, h'], by rw [h]; norm_num⟩

/-- Claim C8 (amended form): the mapping confidence equals
`min(0.4·max + 0.6·mean, 1)` (missing side 0); it never exceeds 1, equals the
claimed weighted sum whenever that sum is at most 1, and lies in `[0, 1]`
whenever every framework score and every similarity is nonnegative. -/
theorem confidence_spec (fs : List (String × ℚ)) (ds : List DocResult) :
    _calculate_confidence fs ds ≤ 1 ∧
    (claimConfidence fs ds ≤ 1 → _calculate_confidence fs ds = claimConfidence fs ds) ∧
    ((∀ x ∈ fs, 0 ≤ x.2) → (∀ d ∈ ds, 0 ≤ d.similarity) →
      0 ≤ _calculate_confidence fs ds) := by
  have hcc : _calculate_confidence fs ds = min (claimConfidence fs ds) 1 := by
    unfold _calculate_confidence claimConfidence
    have e1 : (if fs = [] then (0:ℚ) else listMax (fs.map (·.2)) * (2/5)) =
        (if fs = [] then 0 else (2/5) * listMax (fs.map (·.2))) := by
      split <;> ring
    have e2 : (if ds = [] then (0:ℚ)
          else ((ds.map (·.similarity)).sum / (ds.length : ℚ)) * (3/5)) =
        (if ds = [] then 0
          else (3/5) * ((ds.map (·.similarity)).sum / (ds.length : ℚ))) := by
      split <;> ring
    rw [e1, e2]
  refine ⟨?_, ?_, ?_⟩
  · rw [hcc]; exact min_le_right _ _
  · intro h
    rw [hcc, min_eq_left h]
  · intro hf hd
    rw [hcc]
    refine le_min ?_ (by norm_num)
    refine add_nonneg ?_ ?_
    · split
      · exact le_rfl
      · next hne =>
        refine mul_nonneg (by norm_num) ?_
        have hmapne : fs.map (·.2) ≠ [] := by
          simpa using hne
        obtain ⟨x, hx, hval⟩ := List.mem_map.mp (listMax_mem hmapne)
        rw [← hval]
        exact hf x hx
    · split
      · exact le_rfl
      · next hne =>
        refine mul_nonneg (by norm_num) ?_
        refine div_nonneg ?_ (by positivity)
        refine List.sum_nonneg ?_
        intro a ha
        obtain ⟨d, hd', hval⟩ := List.mem_map.mp ha
        rw [← hval]
        exact hd d hd'

/-- Witness for the amended C8 at one framework score `1/2` and one
similarity `1/2`: confidence `1/2`, inside `[0, 1]`, equal to the weighted
sum. -/
theorem confidence_spec_witness :
    _calculate_confidence [("react", 1/2)] [⟨1/2⟩] ≤ 1 ∧
    _calculate_confidence [("react", 1/2)] [⟨1/2⟩] =
      claimConfidence [("react", 1/2)] [⟨1/2⟩] ∧
    0 ≤ _calculate_confidence [("react", 1/2)] [⟨1/2⟩] := by
  have h := confidence_spec [("react", 1/2)] [⟨1/2⟩]
  refine ⟨h.1, h.2.1 ?_, h.2.2 ?_ ?_⟩
  · unfold claimConfidence listMax
    norm_num
  · intro x hx
    rcases List.mem_singleton.mp hx with rfl
    norm_num
  · intro d hd
    rcases List.mem_singleton.mp hd with rfl
    norm_num

/-! ## Ingest worker (`workers/ingest-worker/worker.py`) -/

/-- The `error_patterns` list of `extract_text_from_log` — note the trailing
colons on the first three patterns. -/
def error_patterns : List String :=
  ["Error:", "Exception:", "Failed:", "Traceback", "ERROR", "WARN", "WARNING", "FATAL"]

/-- Python `str.lower` on ASCII content. -/
def lowerChars (l : List Char) : List Char := l.map Char.toLower

/-- Python `pat in hay` on strings (substring containment). -/
def containsSub (hay pat : List Char) : Bool := decide (pat <:+: hay)

/-- The per-line test of `extract_text_from_log`:
`any(pattern.lower() in line_lower for pattern in error_patterns)`. -/
def matchesSeverity (line : List Char) : Bool :=
  error_patterns.any (fun pat => containsSub (lowerChars line) (lowerChars pat.toList))

/-- `extract_text_from_log` of the Ingest worker (file IO elided; the input is
the decoded file content). -/
def extract_text_from_log (content : List Char) : List Char :=
  let lines := content.splitOn '\n'
  let relevant_lines :=
    (lines.filter matchesSeverity).map (strip (fun c => c.isWhitespace))
  if relevant_lines = [] then content.take 1000
  else List.intercalate ['\n'] (relevant_lines.take 50)

/-- Modelled from the claim's wording: select exactly the lines containing one
of the tokens `Error`, `Exception`, `Failed`, `Traceback`, `ERROR`, `WARN`,
`WARNING`, `FATAL` case-insensitively (no colons, no stripping, no 50-line
cap); when no line matches, the first 1000 characters. -/
def claimExtract (content : List Char) : List Char :=
  let lines := content.splitOn '\n'
  let selected := lines.filter (fun line =>
    (["Error", "Exception", "Failed", "Traceback",
      "ERROR", "WARN", "WARNING", "FATAL"] : List String).any
      (fun pat => containsSub (lowerChars line) (lowerChars pat.toList)))
  if selected = [] then content.take 1000
  else List.intercalate ['\n'] selected

/-- Claim C9 (refuting instance): the line `Uncaught exception in main`
contains the claimed token `Exception` (case-insensitively) but none of the
source's patterns — the source requires `exception:` with a colon (its
colon-free patterns cover only `error`, `warn`/`warning`, `fatal`,
`traceback`).  The source therefore falls back to the first 1000 characters
and returns both lines, while the claim's reading returns just that line. -/
theorem log_extract_counterexample :
    extract_text_from_log ("Uncaught exception in main\nINFO ok".toList) =
      ("Uncaught exception in main\nINFO ok".toList) ∧
    claimExtract ("Uncaught exception in main\nINFO ok".toList) =
      ("Uncaught exception in main".toList) ∧
    extract_text_from_log ("Uncaught exception in main\nINFO ok".toList) ≠
      claimExtract ("Uncaught exception in main\nINFO ok".toList) := by
  refine ⟨by decide, by decide, by decide⟩

/-- The source's eight patterns select exactly the lines containing one of
`error`, `exception:`, `failed:`, `traceback`, `warn`, `fatal`
case-insensitively (`error:` is subsumed by `error`, `warning` by `warn`). -/
lemma matchesSeverity_iff (line : List Char) :
    matchesSeverity line =
      (["error", "exception:", "failed:", "traceback", "warn", "fatal"] : List String).any
        (fun pat => containsSub (lowerChars line) pat.toList) := by
  have herr : ("error".toList : List Char) <+: "error:".toList := by decide
  have hwarn : ("warn".toList : List Char) <+: "warning".toList := by decide
  have e1 : lowerChars "Error:".toList = "error:".toList := by decide
  have e2 : lowerChars "Exception:".toList = "exception:".toList := by decide
  have e3 : lowerChars "Failed:".toList = "failed:".toList := by decide
  have e4 : lowerChars "Traceback".toList = "traceback".toList := by decide
  have e5 : lowerChars "ERROR".toList = "error".toList := by decide
  have e6 : lowerChars "WARN".toList = "warn".toList := by decide
  have e7 : lowerChars "WARNING".toList = "warning".toList := by decide
  have e8 : lowerChars "FATAL".toList = "fatal".toList := by decide
  rw [Bool.eq_iff_iff]
  unfold matchesSeverity error_patterns containsSub
  simp only [List.any_cons, List.any_nil, Bool.or_eq_true, decide_eq_true_eq,
    Bool.false_eq_true, or_false, e1, e2, e3, e4, e5, e6, e7, e8]
  constructor
  · rintro (h | h | h | h | h | h | h | h)
    · exact Or.inl ((herr.isInfix).trans h)
    · exact Or.inr (Or.inl h)
    · exact Or.inr (Or.inr (Or.inl h))
    · exact Or.inr (Or.inr (Or.inr (Or.inl h)))
    · exact Or.inl h
    · exact Or.inr (Or.inr (Or.inr (Or.inr (Or.inl h))))
    · exact Or.inr (Or.inr (Or.inr (Or.inr (Or.inl ((hwarn.isInfix).trans h)))))
    · exact Or.inr (Or.inr (Or.inr (Or.inr (Or.inr h))))
  · rintro (h | h | h | h | h | h)
    · exact Or.inr (Or.inr (Or.inr (Or.inr (Or.inl h))))
    · exact Or.inr (Or.inl h)
    · exact Or.inr (Or.inr (Or.inl h))
    · exact Or.inr (Or.inr (Or.inr (Or.inl h)))
    · exact Or.inr (Or.inr (Or.inr (Or.inr (Or.inr (Or.inl h)))))
    · exact Or.inr (Or.inr (Or.inr (Or.inr (Or.inr (Or.inr (Or.inr h))))))

/-- Modelled from the amended claim: select exactly the lines containing,
case-insensitively, one of `error`, `exception:`, `failed:`, `traceback`,
`warn`, `fatal` (the source's effective token set); strip each selected line;
keep at most the first 50; join with newlines; when no line matches, the
first 1000 characters. -/
def claimExtractAmended (content : List Char) : List Char :=
  let lines := content.splitOn '\n'
  let selected := lines.filter (fun line =>
    (["error", "exception:", "failed:", "traceback", "warn", "fatal"] : List String).any
      (fun pat => containsSub (lowerChars line) pat.toList))
  if selected = [] then content.take 1000
  else List.intercalate ['\n'] ((selected.map (strip (fun c => c.isWhitespace))).take 50)

/-- Claim C9 (amended form): `extract_text_from_log` returns exactly the
stripped lines containing one of the effective severity tokens (the first
three tokens require a trailing colon; `Error`/`WARNING` collapse to
`error`/`warn`), capped at 50 lines, and the first 1000 characters when no
line matches. -/
theorem log_extract_spec (content : List Char) :
    extract_text_from_log content = claimExtractAmended content := by
  unfold extract_text_from_log claimExtractAmended
  have hpred : matchesSeverity = fun line =>
      (["error", "exception:", "failed:", "traceback", "warn", "fatal"] : List String).any
        (fun pat => containsSub (lowerChars line) pat.toList) :=
    funext matchesSeverity_iff
  rw [hpred]
  dsimp only
  set B := (content.splitOn '\n').filter (fun line =>
    (["error", "exception:", "failed:", "traceback", "warn", "fatal"] : List String).any
      (fun pat => containsSub (lowerChars line) pat.toList)) with hB
  by_cases hb : B = []
  · rw [hb]
    simp
  · rw [if_neg hb, if_neg (by simpa using hb)]

/-- Row of the `repros` table as touched by `_save_validation_results`
(only `status` and `updated_at` are written; `updated_at` is not tracked). -/
structure ReproRow where
  id : String
  status : String
deriving Repr, DecidableEq

/-- Row of the `runs` table as inserted by `_save_validation_results`. -/
structure RunRow where
  repro_id : String
  iteration : ℕ
  passed : Bool
  duration_ms : ℚ
  logs_s3 : Option String
  video_s3 : Option String
  trace_s3 : Option String
deriving Repr, DecidableEq

/-- One entry of `results['run_results']` as read by
`_save_validation_results`. -/
structure RunOutcome where
  run_number : ℕ
  passed : Bool
  duration_ms : ℚ
  logs : Option String
  video_url : Option String
  trace_url : Option String
deriving Repr, DecidableEq

/-- The relational state the Validate worker's persistence step touches. -/
structure ValidateDB where
  repros : List ReproRow
  runs : List RunRow
deriving Repr, DecidableEq

/-- `_save_validation_results`: `UPDATE repros SET status = 'validated' WHERE
id = repro_id` followed by one `INSERT INTO runs` per run result.  (The Redis
stability record is cache-only state outside the claims.) -/
def _save_validation_results (db : ValidateDB) (repro_id : String)
    (run_results : List RunOutcome) : ValidateDB :=
  { repros := db.repros.map (fun r =>
      if r.id = repro_id then { r with status := "validated" } else r),
    runs := db.runs ++ run_results.map (fun rr =>
      { repro_id := repro_id, iteration := rr.run_number, passed := rr.passed,
        duration_ms := rr.duration_ms, logs_s3 := rr.logs,
        video_s3 := rr.video_url, trace_s3 := rr.trace_url }) }

/-- Claim C10: the persistence step marks the owning Repro `validated`
regardless of the run outcomes, leaves other Repro rows untouched, inserts
exactly one `runs` row per executed iteration keyed by
`(repro_id, iteration)`, and the resulting `repros` table is identical for
any two outcome lists — so `repros.status` alone cannot distinguish
all-failed from all-passed validations. -/
theorem save_validation_results_spec (db : ValidateDB) (rid : String)
    (results results' : List RunOutcome) :
    (∀ r ∈ db.repros, r.id = rid →
      { r with status := "validated" } ∈ (_save_validation_results db rid results).repros) ∧
    (∀ r ∈ db.repros, r.id ≠ rid →
      r ∈ (_save_validation_results db rid results).repros) ∧
    (_save_validation_results db rid results).runs.length =
      db.runs.length + results.length ∧
    (∀ rr ∈ results,
      ({ repro_id := rid, iteration := rr.run_number, passed := rr.passed,
         duration_ms := rr.duration_ms, logs_s3 := rr.logs,
         video_s3 := rr.video_url, trace_s3 := rr.trace_url } : RunRow) ∈
        (_save_validation_results db rid results).runs) ∧
    (_save_validation_results db rid results).repros =
      (_save_validation_results db rid results').repros := by
  refine ⟨?_, ?_, ?_, ?_, rfl⟩
  · intro r hr hid
    exact List.mem_map.mpr ⟨r, hr, by rw [if_pos hid]⟩
  · intro r hr hid
    exact List.mem_map.mpr ⟨r, hr, by rw [if_neg hid]⟩
  · show (db.runs ++ _).length = _
    rw [List.length_append, List.length_map]
  · intro rr hrr
    exact List.mem_append_right _ (List.mem_map.mpr ⟨rr, hrr, rfl⟩)

/-- Witness for C10: a one-repro database with one failed run — the repro is
still marked `validated`, and an all-passed rerun leaves the same `repros`
table. -/
theorem save_validation_results_spec_witness :
    ({ id := "r1", status := "validated" } : ReproRow) ∈
      (_save_validation_results ⟨[⟨"r1", "created"⟩], []⟩ "r1"
        [⟨1, false, 10, none, none, none⟩]).repros ∧
    (_save_validation_results ⟨[⟨"r1", "created"⟩], []⟩ "r1"
        [⟨1, false, 10, none, none, none⟩]).repros =
      (_save_validation_results ⟨[⟨"r1", "created"⟩], []⟩ "r1"
        [⟨1, true, 10, none, none, none⟩]).repros := by
  have h := save_validation_results_spec ⟨[⟨"r1", "created"⟩], []⟩ "r1"
    [⟨1, false, 10, none, none, none⟩] [⟨1, true, 10, none, none, none⟩]
  exact ⟨h.1 ⟨"r1", "created"⟩ (List.mem_singleton.mpr rfl) rfl, h.2.2.2.2⟩

end BugRepro


